import Mathlib

/-!
Verification of `library.py`: a script that parses a scrambled book file of
`text|line_number` lines, computes the longest line and the average line
length, reorders the lines by line number, and derives an output filename.

Python strings are modelled as `List Char`; Python integers as `Int`.
Fallible code (exceptions) is modelled with `Option`.
-/

namespace Library

/-- Strings of the Python program, modelled as lists of characters. -/
abbrev Str := List Char

/-- A parsed record `(line_number, text)`, as built by `read_book_file`. -/
abbrev Record := Int × Str

/-- Embeds `raw_line.rstrip("\n")`: removes every trailing newline character. -/
def rstripNl (s : Str) : Str := (s.reverse.dropWhile (fun c => c = '\n')).reverse

/-- Embeds `raw_line.rsplit("|", 1)` together with the two-element unpacking in
`parse_line`: split at the last `|`, `none` (Python `ValueError`) when no `|`
occurs. -/
def rsplitBar (s : Str) : Option (Str × Str) :=
  match s.reverse.dropWhile (fun c => c ≠ '|') with
  | [] => none
  | _ :: before => some (before.reverse, (s.reverse.takeWhile (fun c => c ≠ '|')).reverse)

/-- Numeric value of a decimal digit character. -/
def digitVal (c : Char) : Nat := c.toNat - 48

/-- Digit run of Python `int(str)` after its first digit: decimal digits with
single underscores allowed between digits (CPython grammar). -/
def digitsUndAux (acc : Nat) : Str → Option Nat
  | [] => some acc
  | c :: cs =>
    if c.isDigit then digitsUndAux (10 * acc + digitVal c) cs
    else if c = '_' then
      match cs with
      | [] => none
      | d :: ds => if d.isDigit then digitsUndAux (10 * acc + digitVal d) ds else none
    else none

/-- Digit run of Python `int(str)`: must start with a digit. -/
def digitsUnd : Str → Option Nat
  | [] => none
  | c :: cs => if c.isDigit then digitsUndAux (digitVal c) cs else none

/-- Whitespace characters stripped by Python `int(str)` (ASCII subset). -/
def isPyWs (c : Char) : Bool :=
  c == ' ' || c == '\t' || c == '\n' || c == '\r' || c == '\x0b' || c == '\x0c'

/-- Embeds the surrounding-whitespace stripping done by Python `int(str)`. -/
def stripWs (s : Str) : Str :=
  ((s.dropWhile isPyWs).reverse.dropWhile isPyWs).reverse

/-- Embeds Python `int(number_str)` on ASCII strings: optional surrounding
whitespace, optional sign, then a nonempty underscore-separated digit run.
Returns `none` where Python raises `ValueError`. -/
def pyIntOfString (s : Str) : Option Int :=
  match stripWs s with
  | [] => none
  | c :: rest =>
    if c = '-' then (digitsUnd rest).map (fun v => -(v : Int))
    else if c = '+' then (digitsUnd rest).map (fun v => (v : Int))
    else (digitsUnd (c :: rest)).map (fun v => (v : Int))

/-- Embeds `parse_line` (library.py lines 18-33): strip trailing newlines,
split at the last `|`, parse the suffix as an integer. `none` models the
exceptions raised on malformed lines. -/
def parse_line (raw_line : Str) : Option (Str × Int) :=
  match rsplitBar (rstripNl raw_line) with
  | none => none
  | some (text, number_str) => (pyIntOfString number_str).map (fun n => (text, n))

/-- One iteration of the loop in `find_longest_line` (library.py lines 73-82),
acting on the state `(best_line_number, best_text, best_length)`. -/
def fllStep (best : Int × Str × Int) (r : Record) : Int × Str × Int :=
  if (r.2.length : Int) > best.2.2 then (r.1, r.2, (r.2.length : Int))
  else if (r.2.length : Int) = best.2.2 ∧ r.1 > best.1 then (r.1, r.2, best.2.2)
  else best

/-- Embeds `find_longest_line` (library.py lines 57-84). -/
def find_longest_line (rows : List Record) : Int × Str × Int :=
  rows.foldl fllStep (-1, [], -1)

/-- Embeds `sum(len(text) for _, text in rows)`. -/
def total_chars (rows : List Record) : Nat := (rows.map (fun r => r.2.length)).sum

/-- Embeds `average_line_length` (library.py lines 87-104). The source
computes `int(total_chars / count + 0.5)` with IEEE-754 doubles; here that
arithmetic is modelled over exact rationals (and `int` truncation on a
non-negative argument is `Int.floor`). -/
def average_line_length (rows : List Record) : Int :=
  if rows = [] then 0
  else Int.floor ((total_chars rows : ℚ) / (rows.length : ℚ) + 1 / 2)

/-- The key comparison underlying `sorted(rows, key=lambda pair: pair[0])`. -/
def byNum (a b : Record) : Prop := a.1 ≤ b.1

instance : DecidableRel byNum := fun a b => Int.decLe a.1 b.1

instance : IsTotal Record byNum := ⟨fun a b => Int.le_total a.1 b.1⟩

instance : IsTrans Record byNum := ⟨fun _ _ _ h1 h2 => le_trans h1 h2⟩

/-- Embeds `sort_lines_by_number` (library.py lines 107-114): Python `sorted`
with key `pair[0]` is a stable sort by line number, and stable sorts by one
total preorder agree on every input, so insertion sort realizes it. -/
def sort_lines_by_number (rows : List Record) : List Record :=
  List.insertionSort byNum rows

/-- Embeds Python `str.rfind(c)`: index of the last occurrence, `-1` if none. -/
def rfindC (c : Char) (p : Str) : Int :=
  if c ∈ p then ((p.reverse.dropWhile (fun a => a ≠ c)).length : Int) - 1 else -1

/-- Embeds `os.path.basename` (posix): the part after the last `/`. -/
def basename (p : Str) : Str := (p.reverse.takeWhile (fun c => c ≠ '/')).reverse

/-- Embeds `os.path.dirname` (posix): the head `p[:i]` for `i` just past the
last `/`, with trailing slashes stripped (`head.rstrip(sep)`) unless the head
consists only of slashes. The Python local `head` is inlined. -/
def dirname (p : Str) : Str :=
  if (p.reverse.dropWhile (fun c => c ≠ '/')).reverse ≠ [] ∧
      ((p.reverse.dropWhile (fun c => c ≠ '/')).reverse).any (fun c => c ≠ '/') then
    ((((p.reverse.dropWhile (fun c => c ≠ '/')).reverse).reverse).dropWhile
      (fun c => c = '/')).reverse
  else (p.reverse.dropWhile (fun c => c ≠ '/')).reverse

/-- Embeds `os.path.splitext` (posix, CPython `genericpath._splitext`): split
at the last dot that lies after the last `/` and has some non-dot character
between the basename start and itself. The Python locals `sepIndex` and
`dotIndex` are inlined. -/
def splitext (p : Str) : Str × Str :=
  if rfindC '/' p < rfindC '.' p then
    if ((p.take (rfindC '.' p).toNat).drop ((rfindC '/' p) + 1).toNat).any
        (fun c => c ≠ '.') then
      (p.take (rfindC '.' p).toNat, p.drop (rfindC '.' p).toNat)
    else (p, [])
  else (p, [])

/-- Embeds `os.path.join(directory, out_name)` (posix) as called in
`make_output_filename`. -/
def joinPath (a b : Str) : Str :=
  if b.head? = some '/' then b
  else if a = [] ∨ a.getLast? = some '/' then a ++ b
  else a ++ '/' :: b

/-- The literal suffix appended to the code: `"_book.txt"`. -/
def bookSuffix : Str := ['_', 'b', 'o', 'o', 'k', '.', 't', 'x', 't']

/-- Embeds `make_output_filename` (library.py lines 117-138); the Python
locals `directory`, `base`, `code` and `out_name` are inlined. -/
def make_output_filename (input_path : Str) : Str × Str :=
  if dirname input_path ≠ [] then
    ((splitext (basename input_path)).1,
      joinPath (dirname input_path) ((splitext (basename input_path)).1 ++ bookSuffix))
  else ((splitext (basename input_path)).1, (splitext (basename input_path)).1 ++ bookSuffix)

/-- Decimal digit character for `d < 10`. -/
def digitChar (d : Nat) : Char := Char.ofNat (48 + d)

/-- Decimal digits of a natural number, most significant first (Python `str`
of a non-negative integer). -/
def natDigs (n : Nat) : Str :=
  if n < 10 then [digitChar n]
  else natDigs (n / 10) ++ [digitChar (n % 10)]
  termination_by n
  decreasing_by exact Nat.div_lt_self (by omega) (by omega)

/-- Embeds Python `str` on an integer. -/
def pyStrOfInt (n : Int) : Str :=
  if n < 0 then '-' :: natDigs (-n).toNat else natDigs n.toNat

/-- Comparison key of a record inside the `find_longest_line` loop. -/
def keyOf (r : Record) : Int × Int := ((r.2.length : Int), r.1)

/-- Comparison key of a `find_longest_line` loop state. -/
def keyB (b : Int × Str × Int) : Int × Int := (b.2.2, b.1)

/-- Strict lexicographic order on `(length, line_number)` keys. -/
def keyLt (a b : Int × Int) : Prop := a.1 < b.1 ∨ (a.1 = b.1 ∧ a.2 < b.2)

instance : DecidableRel keyLt := fun a b => by unfold keyLt; infer_instance

/-- Running maximum of record keys, as accumulated by the loop. -/
def maxKeyFold (rows : List Record) (k : Int × Int) : Int × Int :=
  rows.foldl (fun a r => if keyLt a (keyOf r) then keyOf r else a) k

/-- Tags texts with consecutive line numbers starting at `k`: the book in
authored order. -/
def tagFrom (k : Int) : List Str → List Record
  | [] => []
  | t :: ts => (k, t) :: tagFrom (k + 1) ts

/-- Specification-level filename stem: the basename truncated at its last dot,
except that a basename whose characters before the last dot are all dots (or
which has no dot at all) is kept whole. Stated from the amended reading of the
spec sentence on filename derivation, for comparison against `splitext`. -/
def stemAtLastDot (b : Str) : Str :=
  match b.reverse.dropWhile (fun c => c ≠ '.') with
  | [] => b
  | _ :: rest => if rest.any (fun c => c ≠ '.') then rest.reverse else b

/-! ### Lemmas on the lexicographic `(length, line_number)` key order -/

theorem keyLt_irrefl (a : Int × Int) : ¬ keyLt a a := by
  unfold keyLt; omega

theorem keyLt_asymm {a b : Int × Int} (h : keyLt a b) : ¬ keyLt b a := by
  unfold keyLt at *; omega

theorem keyLt_trans {a b c : Int × Int} (h1 : keyLt a b) (h2 : keyLt b c) : keyLt a c := by
  unfold keyLt at *; omega

theorem keyLe_trans {a b c : Int × Int} (h1 : ¬ keyLt b a) (h2 : ¬ keyLt c b) :
    ¬ keyLt c a := by
  unfold keyLt at *; omega

theorem keyLt_of_le_of_ne {a b : Int × Int} (h1 : ¬ keyLt b a) (h2 : a ≠ b) : keyLt a b := by
  have h3 : ¬(a.1 = b.1 ∧ a.2 = b.2) := fun hc => h2 (Prod.ext_iff.mpr hc)
  unfold keyLt at *; omega

theorem keyLt_connex {a b : Int × Int} (h : a ≠ b) : keyLt a b ∨ keyLt b a := by
  have h2 : ¬(a.1 = b.1 ∧ a.2 = b.2) := fun hc => h (Prod.ext_iff.mpr hc)
  unfold keyLt; omega

/-- The loop body of `find_longest_line` replaces the running best exactly when
the candidate key is lexicographically larger. -/
theorem fllStep_eq (b : Int × Str × Int) (r : Record) :
    fllStep b r = if keyLt (keyB b) (keyOf r) then (r.1, r.2, (r.2.length : Int)) else b := by
  simp only [fllStep, keyLt, keyB, keyOf]
  split_ifs <;> first
  | rfl
  | (exfalso; omega)
  | (exact congrArg (fun z => (r.1, r.2, z)) (by omega))

theorem keyB_triple (r : Record) : keyB (r.1, r.2, (r.2.length : Int)) = keyOf r := rfl

theorem fllStep_comm_of_lt {x y : Record} (h : keyLt (keyOf x) (keyOf y))
    (z : Int × Str × Int) : fllStep (fllStep z x) y = fllStep (fllStep z y) x := by
  by_cases h1 : keyLt (keyB z) (keyOf x)
  · have hzx : fllStep z x = (x.1, x.2, (x.2.length : Int)) := by
      rw [fllStep_eq, if_pos h1]
    have hzy : fllStep z y = (y.1, y.2, (y.2.length : Int)) := by
      rw [fllStep_eq, if_pos (keyLt_trans h1 h)]
    rw [hzx, hzy, fllStep_eq, fllStep_eq, keyB_triple, keyB_triple,
      if_pos h, if_neg (keyLt_asymm h)]
  · have hzx : fllStep z x = z := by rw [fllStep_eq, if_neg h1]
    rw [hzx]
    by_cases h2 : keyLt (keyB z) (keyOf y)
    · have hzy : fllStep z y = (y.1, y.2, (y.2.length : Int)) := by
        rw [fllStep_eq, if_pos h2]
      rw [hzy, fllStep_eq, keyB_triple, if_neg (keyLt_asymm h)]
    · have hzy : fllStep z y = z := by rw [fllStep_eq, if_neg h2]
      rw [hzy, fllStep_eq, if_neg h1]

/-- The loop body commutes on two records whose keys cannot collide without
the records being equal. -/
theorem fllStep_comm {x y : Record} (hxy : x.1 = y.1 → x = y) (z : Int × Str × Int) :
    fllStep (fllStep z x) y = fllStep (fllStep z y) x := by
  by_cases hk : keyOf x = keyOf y
  · have hx : x = y := hxy (congrArg Prod.snd hk)
    rw [hx]
  · rcases keyLt_connex hk with h | h
    · exact fllStep_comm_of_lt h z
    · exact (fllStep_comm_of_lt h z).symm

/-- In a list whose line numbers are pairwise distinct, the line number
determines the record. -/
theorem pairwise_fst_inj {rows : List Record}
    (hd : rows.Pairwise (fun a b => a.1 ≠ b.1)) :
    ∀ x ∈ rows, ∀ y ∈ rows, x.1 = y.1 → x = y := by
  induction rows with
  | nil => intro x hx; exact absurd hx (List.not_mem_nil x)
  | cons a t ih =>
    obtain ⟨ha, ht⟩ := List.pairwise_cons.mp hd
    intro x hx y hy hxy
    rcases List.mem_cons.mp hx with hxa | hx
    · rcases List.mem_cons.mp hy with hya | hy
      · exact hxa.trans hya.symm
      · exact absurd (hxa ▸ hxy) (ha y hy)
    · rcases List.mem_cons.mp hy with hya | hy
      · exact absurd (hya ▸ hxy.symm) (ha x hx)
      · exact ih ht x hx y hy hxy

/-- C2 (amended): on a list of records with pairwise distinct line numbers,
`find_longest_line` returns the same `(line_number, text, length)` result on
every permutation of the list: ties in length are decided by the line_number
value alone. -/
theorem c2_find_longest_perm_invariant (rows rows' : List Record)
    (hd : rows.Pairwise (fun a b => a.1 ≠ b.1)) (hp : rows.Perm rows') :
    find_longest_line rows = find_longest_line rows' := by
  unfold find_longest_line
  exact hp.foldl_eq' (fun x hx y hy z => fllStep_comm (pairwise_fst_inj hd x hx y hy) z) _

/-- C2 (counterexample): with two records sharing line number 1 and length 2
but different texts, scanning in the two orders returns different texts, so
the claim fails as stated for arbitrary lists. -/
theorem c2_counterexample :
    ([((1 : Int), ['a', 'a']), (1, ['a', 'b'])] : List Record).Perm
      [((1 : Int), ['a', 'b']), (1, ['a', 'a'])] ∧
    find_longest_line [((1 : Int), ['a', 'a']), (1, ['a', 'b'])] ≠
      find_longest_line [((1 : Int), ['a', 'b']), (1, ['a', 'a'])] := by
  constructor
  · decide
  · decide

/-- C2 (witness): the amended theorem applied to a concrete scramble. -/
theorem c2_witness :
    ([((1 : Int), ['a']), (2, ['b', 'c'])] : List Record).Pairwise (fun a b => a.1 ≠ b.1) ∧
    ([((1 : Int), ['a']), (2, ['b', 'c'])] : List Record).Perm
      [((2 : Int), ['b', 'c']), (1, ['a'])] ∧
    find_longest_line [((1 : Int), ['a']), (2, ['b', 'c'])] =
      find_longest_line [((2 : Int), ['b', 'c']), (1, ['a'])] :=
  ⟨by decide, by decide,
    c2_find_longest_perm_invariant _ _ (by decide) (by decide)⟩

/-- Loop invariant of `find_longest_line`: the fold result is the initial
state or a record of the list (with its recorded length), its key dominates
the initial key, and its key dominates every scanned record's key. -/
theorem fll_fold_inv (rows : List Record) (b : Int × Str × Int) :
    (rows.foldl fllStep b = b ∨
      (((rows.foldl fllStep b).1, (rows.foldl fllStep b).2.1) ∈ rows ∧
        (rows.foldl fllStep b).2.2 = (((rows.foldl fllStep b).2.1).length : Int))) ∧
    (¬ keyLt (keyB (rows.foldl fllStep b)) (keyB b)) ∧
    ∀ r ∈ rows, ¬ keyLt (keyB (rows.foldl fllStep b)) (keyOf r) := by
  induction rows generalizing b with
  | nil =>
    exact ⟨Or.inl rfl, keyLt_irrefl _, fun r hr => absurd hr (List.not_mem_nil r)⟩
  | cons r rs ih =>
    have hstep : fllStep b r = b ∨
        fllStep b r = (r.1, r.2, (r.2.length : Int)) := by
      rw [fllStep_eq]; split_ifs <;> [exact Or.inr rfl; exact Or.inl rfl]
    have hstep_b : ¬ keyLt (keyB (fllStep b r)) (keyB b) := by
      rw [fllStep_eq]; split_ifs with h
      · rw [keyB_triple]; exact keyLt_asymm h
      · exact keyLt_irrefl _
    have hstep_r : ¬ keyLt (keyB (fllStep b r)) (keyOf r) := by
      rw [fllStep_eq]; split_ifs with h
      · rw [keyB_triple]; exact keyLt_irrefl _
      · exact h
    obtain ⟨ih1, ih2, ih3⟩ := ih (fllStep b r)
    rw [List.foldl_cons]
    refine ⟨?_, keyLe_trans hstep_b ih2, ?_⟩
    · rcases ih1 with h | h
      · rcases hstep with h2 | h2
        · exact Or.inl (h.trans h2)
        · refine Or.inr ⟨?_, ?_⟩
          · rw [h, h2]; exact List.mem_cons_self r rs
          · rw [h, h2]
      · exact Or.inr ⟨List.mem_cons_of_mem r h.1, h.2⟩
    · intro x hx
      rcases List.mem_cons.mp hx with hxa | hx
      · rw [hxa]; exact keyLe_trans hstep_r ih2
      · exact ih3 x hx

/-- C3: on a non-empty record list, `find_longest_line` returns a member
record together with its text length, and that record's `(length,
line_number)` key dominates every record: all other records are strictly
shorter, or equally long with a line number at most the returned one. -/
theorem c3_find_longest_line_correct (rows : List Record) (h : rows ≠ []) :
    (((find_longest_line rows).1, (find_longest_line rows).2.1) ∈ rows ∧
      (find_longest_line rows).2.2 = (((find_longest_line rows).2.1).length : Int)) ∧
    ∀ r ∈ rows, ((r.2.length : Int) < (find_longest_line rows).2.2 ∨
      ((r.2.length : Int) = (find_longest_line rows).2.2 ∧
        r.1 ≤ (find_longest_line rows).1)) := by
  obtain ⟨r0, hr0⟩ := List.exists_mem_of_ne_nil rows h
  obtain ⟨h1, _h2, h3⟩ := fll_fold_inv rows (-1, [], -1)
  unfold find_longest_line
  rcases h1 with hb | hmem
  · exfalso
    have hk := h3 r0 hr0
    rw [hb] at hk
    unfold keyLt keyB keyOf at hk
    simp only at hk
    omega
  · refine ⟨hmem, ?_⟩
    intro r hr
    have hk := h3 r hr
    unfold keyLt keyB keyOf at hk
    simp only at hk
    omega

/-- C3 (witness): the documented example `[(1,"hi"),(2,"hello"),(3,"hello")]`
gives `(3, "hello", 5)`, which is a member with maximal length. -/
theorem c3_witness :
    (([((1 : Int), ['h', 'i']), (2, ['h', 'e', 'l', 'l', 'o']),
        (3, ['h', 'e', 'l', 'l', 'o'])] : List Record) ≠ []) ∧
    ((find_longest_line [((1 : Int), ['h', 'i']), (2, ['h', 'e', 'l', 'l', 'o']),
        (3, ['h', 'e', 'l', 'l', 'o'])]).1,
      (find_longest_line [((1 : Int), ['h', 'i']), (2, ['h', 'e', 'l', 'l', 'o']),
        (3, ['h', 'e', 'l', 'l', 'o'])]).2.1) ∈
      ([((1 : Int), ['h', 'i']), (2, ['h', 'e', 'l', 'l', 'o']),
        (3, ['h', 'e', 'l', 'l', 'o'])] : List Record) ∧
    find_longest_line [((1 : Int), ['h', 'i']), (2, ['h', 'e', 'l', 'l', 'o']),
        (3, ['h', 'e', 'l', 'l', 'o'])] = (3, ['h', 'e', 'l', 'l', 'o'], 5) :=
  ⟨by decide,
    (c3_find_longest_line_correct
      [((1 : Int), ['h', 'i']), (2, ['h', 'e', 'l', 'l', 'o']),
        (3, ['h', 'e', 'l', 'l', 'o'])] (by decide)).1.1,
    by decide⟩

/-- C8: on the empty record list, `average_line_length` returns 0 through the
guard (no division is reached) and `find_longest_line` returns the sentinel
`(-1, "", -1)`. -/
theorem c8_empty_input_defaults :
    average_line_length [] = 0 ∧ find_longest_line [] = (-1, [], -1) :=
  ⟨rfl, rfl⟩

/-! ### Sorting: order and stability -/

/-- Inserting a record leaves every line-number fiber unchanged except for
the record's own fiber, which gains the record at its front. -/
theorem orderedInsert_filter_fst (x : Record) (l : List Record) (k : Int) :
    (List.orderedInsert byNum x l).filter (fun r => decide (r.1 = k)) =
      if x.1 = k then x :: l.filter (fun r => decide (r.1 = k))
      else l.filter (fun r => decide (r.1 = k)) := by
  induction l with
  | nil =>
    simp only [List.orderedInsert, List.filter]
    by_cases h : x.1 = k <;> simp [h]
  | cons b t ih =>
    simp only [List.orderedInsert]
    by_cases hbn : byNum x b
    · rw [if_pos hbn]
      by_cases h : x.1 = k <;> simp [List.filter_cons, h]
    · rw [if_neg hbn]
      by_cases hb : b.1 = k
      · have hx : ¬ x.1 = k := fun hxk => hbn (le_of_eq (hxk.trans hb.symm))
        simp [List.filter_cons, ih, hb, hx]
      · by_cases hx : x.1 = k <;> simp [List.filter_cons, ih, hb, hx]

/-- Stability of the sort: every line-number fiber of the output equals the
corresponding fiber of the input. -/
theorem sort_filter_fst (rows : List Record) (k : Int) :
    (sort_lines_by_number rows).filter (fun r => decide (r.1 = k)) =
      rows.filter (fun r => decide (r.1 = k)) := by
  unfold sort_lines_by_number
  induction rows with
  | nil => rfl
  | cons a t ih =>
    simp only [List.insertionSort]
    rw [orderedInsert_filter_fst]
    by_cases h : a.1 = k
    · rw [if_pos h, ih, List.filter_cons, if_pos (by simp [h])]
    · rw [if_neg h, ih, List.filter_cons, if_neg (by simp [h])]

/-- C6: `sort_lines_by_number` returns the records in ascending order of
line number, and the sort is stable: records with equal line numbers keep
their relative input order (their fiber is preserved verbatim). -/
theorem c6_sort_sorted_and_stable (rows : List Record) :
    (sort_lines_by_number rows).Pairwise (fun a b : Record => a.1 ≤ b.1) ∧
    ∀ k : Int, (sort_lines_by_number rows).filter (fun r => decide (r.1 = k)) =
      rows.filter (fun r => decide (r.1 = k)) :=
  ⟨List.sorted_insertionSort byNum rows, fun k => sort_filter_fst rows k⟩

/-! ### Round-trip reconstruction of a scrambled book -/

theorem mem_tagFrom_fst {k : Int} {ts : List Str} {r : Record}
    (h : r ∈ tagFrom k ts) : k ≤ r.1 := by
  induction ts generalizing k with
  | nil => exact absurd h (List.not_mem_nil r)
  | cons t ts ih =>
    rcases List.mem_cons.mp h with hr | hr
    · rw [hr]
    · have := ih hr
      omega

theorem tagFrom_sorted_lt (k : Int) (ts : List Str) :
    (tagFrom k ts).Pairwise (fun a b : Record => a.1 < b.1) := by
  induction ts generalizing k with
  | nil => exact List.Pairwise.nil
  | cons t ts ih =>
    refine List.Pairwise.cons ?_ (ih (k + 1))
    intro r hr
    have := mem_tagFrom_fst hr
    simp only
    omega

theorem map_snd_tagFrom (k : Int) (ts : List Str) :
    (tagFrom k ts).map (fun r => r.2) = ts := by
  induction ts generalizing k with
  | nil => rfl
  | cons t ts ih => simp [tagFrom, ih]

/-- C7: if a scrambled list is a permutation of texts `t_1 .. t_N` tagged with
line numbers `1 .. N`, sorting it and extracting the texts reproduces the
original sequence. -/
theorem c7_round_trip (ts : List Str) (p : List Record)
    (hp : p.Perm (tagFrom 1 ts)) :
    (sort_lines_by_number p).map (fun r => r.2) = ts := by
  have hperm : (sort_lines_by_number p).Perm (tagFrom 1 ts) :=
    (List.perm_insertionSort byNum p).trans hp
  have hsorted_le : (sort_lines_by_number p).Pairwise byNum :=
    List.sorted_insertionSort byNum p
  have hnodup : ((tagFrom 1 ts).map (fun r => r.1)).Nodup := by
    refine List.pairwise_map.mpr ?_
    exact (tagFrom_sorted_lt 1 ts).imp (fun h => ne_of_lt h)
  have hnodup2 : ((sort_lines_by_number p).map (fun r => r.1)).Nodup :=
    ((hperm.map (fun r => r.1)).nodup_iff).mpr hnodup
  have hsorted_lt : (sort_lines_by_number p).Pairwise (fun a b : Record => a.1 < b.1) := by
    have hne : (sort_lines_by_number p).Pairwise (fun a b : Record => a.1 ≠ b.1) :=
      List.pairwise_map.mp hnodup2
    exact (hsorted_le.and hne).imp (fun h => lt_of_le_of_ne h.1 h.2)
  haveI : IsAntisymm Record (fun a b : Record => a.1 < b.1) :=
    ⟨fun a b h1 h2 => absurd h2 (by omega)⟩
  have heq : sort_lines_by_number p = tagFrom 1 ts :=
    List.eq_of_perm_of_sorted hperm hsorted_lt (tagFrom_sorted_lt 1 ts)
  rw [heq, map_snd_tagFrom]

/-- C7 (witness): a concrete scramble of three texts reconstructs them. -/
theorem c7_witness :
    ([((2 : Int), ['b', 'b']), (3, ['c']), (1, ['a'])] : List Record).Perm
      (tagFrom 1 [['a'], ['b', 'b'], ['c']]) ∧
    (sort_lines_by_number [((2 : Int), ['b', 'b']), (3, ['c']), (1, ['a'])]).map
      (fun r => r.2) = [['a'], ['b', 'b'], ['c']] :=
  ⟨by decide, c7_round_trip _ _ (by decide)⟩

/-! ### Statistics are unchanged by sorting -/

theorem keyB_fllStep (b : Int × Str × Int) (r : Record) :
    keyB (fllStep b r) = if keyLt (keyB b) (keyOf r) then keyOf r else keyB b := by
  rw [fllStep_eq]
  split_ifs with h
  · exact keyB_triple r
  · rfl

theorem maxKeyFold_cons (r : Record) (rs : List Record) (k : Int × Int) :
    maxKeyFold (r :: rs) k = maxKeyFold rs (if keyLt k (keyOf r) then keyOf r else k) := rfl

theorem maxKeyFold_cons_fllStep (r : Record) (rs : List Record) (b : Int × Str × Int) :
    maxKeyFold (r :: rs) (keyB b) = maxKeyFold rs (keyB (fllStep b r)) := by
  rw [maxKeyFold_cons, keyB_fllStep]

/-- The key of the `find_longest_line` fold state is the running key maximum. -/
theorem keyB_foldl (rows : List Record) (b : Int × Str × Int) :
    keyB (rows.foldl fllStep b) = maxKeyFold rows (keyB b) := by
  induction rows generalizing b with
  | nil => rfl
  | cons r rs ih =>
    rw [List.foldl_cons, ih, maxKeyFold_cons_fllStep]

theorem maxLex_comm (z a b : Int × Int) :
    (if keyLt (if keyLt z a then a else z) b then b else if keyLt z a then a else z) =
      (if keyLt (if keyLt z b then b else z) a then a else if keyLt z b then b else z) := by
  obtain ⟨z1, z2⟩ := z
  obtain ⟨a1, a2⟩ := a
  obtain ⟨b1, b2⟩ := b
  unfold keyLt
  dsimp only
  split_ifs <;> first
  | rfl
  | (simp only [Prod.mk.injEq]; omega)

/-- The running key maximum does not depend on scan order. -/
theorem maxKeyFold_perm {rows rows' : List Record} (hp : rows.Perm rows')
    (k : Int × Int) : maxKeyFold rows k = maxKeyFold rows' k := by
  unfold maxKeyFold
  exact hp.foldl_eq' (fun x _ y _ z => maxLex_comm z (keyOf x) (keyOf y)) k

/-- The running key maximum dominates the seed and every scanned record. -/
theorem maxKeyFold_ge (rows : List Record) (k : Int × Int) :
    ¬ keyLt (maxKeyFold rows k) k ∧
      ∀ r ∈ rows, ¬ keyLt (maxKeyFold rows k) (keyOf r) := by
  induction rows generalizing k with
  | nil => exact ⟨keyLt_irrefl k, fun r hr => absurd hr (List.not_mem_nil r)⟩
  | cons r rs ih =>
    rw [maxKeyFold_cons]
    obtain ⟨h1, h2⟩ := ih (if keyLt k (keyOf r) then keyOf r else k)
    have hmid_k : ¬ keyLt (if keyLt k (keyOf r) then keyOf r else k) k := by
      split_ifs with h
      · exact keyLt_asymm h
      · exact keyLt_irrefl k
    have hmid_r : ¬ keyLt (if keyLt k (keyOf r) then keyOf r else k) (keyOf r) := by
      split_ifs with h
      · exact keyLt_irrefl _
      · exact h
    refine ⟨keyLe_trans hmid_k h1, ?_⟩
    intro x hx
    rcases List.mem_cons.mp hx with hxr | hx
    · rw [hxr]; exact keyLe_trans hmid_r h1
    · exact h2 x hx

/-- The running key maximum is the seed or the key of a scanned record. -/
theorem maxKeyFold_achieved (rows : List Record) (k : Int × Int) :
    maxKeyFold rows k = k ∨ ∃ r ∈ rows, maxKeyFold rows k = keyOf r := by
  induction rows generalizing k with
  | nil => exact Or.inl rfl
  | cons r rs ih =>
    rw [maxKeyFold_cons]
    rcases ih (if keyLt k (keyOf r) then keyOf r else k) with h | ⟨x, hx, hx2⟩
    · rw [h]
      split_ifs with hc
      · exact Or.inr ⟨r, List.mem_cons_self r rs, rfl⟩
      · exact Or.inl rfl
    · exact Or.inr ⟨x, List.mem_cons_of_mem r hx, hx2⟩

/-- If no scanned record strictly beats the state key, the fold is inert. -/
theorem foldl_fllStep_of_le (rows : List Record) (b : Int × Str × Int)
    (h : ∀ r ∈ rows, ¬ keyLt (keyB b) (keyOf r)) : rows.foldl fllStep b = b := by
  induction rows with
  | nil => rfl
  | cons r rs ih =>
    rw [List.foldl_cons]
    have hb : fllStep b r = b := by
      rw [fllStep_eq, if_neg (h r (List.mem_cons_self r rs))]
    rw [hb]
    exact ih (fun x hx => h x (List.mem_cons_of_mem r hx))

/-- The fold returns the first scanned record achieving the maximal key,
whenever that maximum strictly beats the seed. -/
theorem foldl_fllStep_winner (rows : List Record) (b : Int × Str × Int) (w : Record)
    (hlt : keyLt (keyB b) (maxKeyFold rows (keyB b)))
    (hw : (rows.filter (fun r => decide (keyOf r = maxKeyFold rows (keyB b)))).head? =
      some w) :
    rows.foldl fllStep b = (w.1, w.2, (w.2.length : Int)) := by
  induction rows generalizing b with
  | nil => exact absurd hlt (keyLt_irrefl _)
  | cons r rs ih =>
    have hKtop : maxKeyFold (r :: rs) (keyB b) = maxKeyFold rs (keyB (fllStep b r)) :=
      maxKeyFold_cons_fllStep r rs b
    have hge : ∀ x ∈ r :: rs, ¬ keyLt (maxKeyFold (r :: rs) (keyB b)) (keyOf x) :=
      (maxKeyFold_ge (r :: rs) (keyB b)).2
    rw [List.foldl_cons]
    by_cases hcase : keyLt (keyB b) (keyOf r)
    · have hstep : fllStep b r = (r.1, r.2, (r.2.length : Int)) := by
        rw [fllStep_eq, if_pos hcase]
      have hkb : keyB (fllStep b r) = keyOf r := by rw [hstep]; exact keyB_triple r
      by_cases hr : keyOf r = maxKeyFold (r :: rs) (keyB b)
      · have hwr : w = r := by
          rw [List.filter_cons, if_pos (by simp [hr])] at hw
          simp only [List.head?_cons, Option.some.injEq] at hw
          exact hw.symm
        have hrest : rs.foldl fllStep (fllStep b r) = fllStep b r := by
          refine foldl_fllStep_of_le rs (fllStep b r) ?_
          intro x hx
          rw [hkb, hr]
          exact hge x (List.mem_cons_of_mem r hx)
        rw [hrest, hstep, hwr]
      · have hKtop2 : maxKeyFold (r :: rs) (keyB b) = maxKeyFold rs (keyOf r) := by
          rw [hKtop, hkb]
        have hlt2 : keyLt (keyB (fllStep b r)) (maxKeyFold rs (keyB (fllStep b r))) := by
          rw [hkb, ← hKtop2]
          exact keyLt_of_le_of_ne (hge r (List.mem_cons_self r rs)) hr
        have hw2 : (rs.filter (fun x => decide (keyOf x =
            maxKeyFold rs (keyB (fllStep b r))))).head? = some w := by
          rw [List.filter_cons, if_neg (by simp [hr]), hKtop] at hw
          exact hw
        exact ih (fllStep b r) hlt2 hw2
    · have hstep : fllStep b r = b := by rw [fllStep_eq, if_neg hcase]
      have hKeq : maxKeyFold (r :: rs) (keyB b) = maxKeyFold rs (keyB b) := by
        rw [hKtop, hstep]
      have hr : ¬ keyOf r = maxKeyFold (r :: rs) (keyB b) := by
        intro he
        exact hcase (by rw [he]; exact hlt)
      have hlt2 : keyLt (keyB b) (maxKeyFold rs (keyB b)) := by
        rw [← hKeq]; exact hlt
      have hw2 : (rs.filter (fun x => decide (keyOf x =
          maxKeyFold rs (keyB b)))).head? = some w := by
        rw [List.filter_cons, if_neg (by simp [hr]), hKeq] at hw
        exact hw
      rw [hstep]
      exact ih b hlt2 hw2

/-- The average is a function of the multiset of records only. -/
theorem average_perm {l l' : List Record} (hp : l.Perm l') :
    average_line_length l = average_line_length l' := by
  unfold average_line_length total_chars
  have hlen : l.length = l'.length := hp.length_eq
  have hsum : (l.map (fun r => r.2.length)).sum = (l'.map (fun r => r.2.length)).sum :=
    (hp.map (fun r => r.2.length)).sum_eq
  have hnil : (l = []) ↔ (l' = []) := by
    constructor
    · intro h
      rw [h] at hp
      exact hp.symm.eq_nil
    · intro h
      rw [h] at hp
      exact hp.eq_nil
  rw [hsum, hlen]
  exact if_congr hnil rfl rfl

/-- Filtering on the full `(length, line_number)` key factors through the
line-number fiber. -/
theorem filter_key_factor (l : List Record) (K : Int × Int) :
    l.filter (fun r => decide (keyOf r = K)) =
      (l.filter (fun r => decide (r.1 = K.2))).filter
        (fun r => decide ((r.2.length : Int) = K.1)) := by
  rw [List.filter_filter]
  refine (List.filter_congr ?_).symm
  intro a _
  rw [← Bool.decide_and]
  refine decide_eq_decide.mpr ?_
  constructor
  · intro h
    exact Prod.ext_iff.mpr ⟨h.1, h.2⟩
  · intro h
    exact ⟨congrArg Prod.fst h, congrArg Prod.snd h⟩

/-- Sorting does not change the result of `find_longest_line`: the winning
key is the multiset maximum, and the first record carrying it lies in a
single line-number fiber, which the stable sort preserves. -/
theorem fll_sort_eq (rows : List Record) :
    find_longest_line (sort_lines_by_number rows) = find_longest_line rows := by
  rcases eq_or_ne rows [] with rfl | hne
  · rfl
  · have hperm : (sort_lines_by_number rows).Perm rows :=
      List.perm_insertionSort byNum rows
    have hKs : maxKeyFold (sort_lines_by_number rows) (keyB (-1, [], -1)) =
        maxKeyFold rows (keyB (-1, [], -1)) := maxKeyFold_perm hperm _
    obtain ⟨r0, hr0⟩ := List.exists_mem_of_ne_nil rows hne
    have hinit_lt : keyLt (keyB (-1, [], -1)) (maxKeyFold rows (keyB (-1, [], -1))) := by
      have h1 : ¬ keyLt (maxKeyFold rows (keyB (-1, [], -1))) (keyOf r0) :=
        (maxKeyFold_ge rows _).2 r0 hr0
      simp only [keyLt, keyB, keyOf] at h1 ⊢
      omega
    rcases maxKeyFold_achieved rows (keyB (-1, [], -1)) with h | ⟨x, hx, hxK⟩
    · exfalso
      rw [h] at hinit_lt
      exact keyLt_irrefl _ hinit_lt
    · have hxmem : x ∈ rows.filter (fun r => decide (keyOf r =
          maxKeyFold rows (keyB (-1, [], -1)))) :=
        List.mem_filter.mpr ⟨hx, by simp [hxK]⟩
      obtain ⟨w, hwhead⟩ : ∃ w, (rows.filter (fun r => decide (keyOf r =
          maxKeyFold rows (keyB (-1, [], -1))))).head? = some w := by
        cases hfl : rows.filter (fun r => decide (keyOf r =
            maxKeyFold rows (keyB (-1, [], -1)))) with
        | nil => rw [hfl] at hxmem; exact absurd hxmem (List.not_mem_nil x)
        | cons a l => exact ⟨a, rfl⟩
      have hfilter_eq : (sort_lines_by_number rows).filter (fun r => decide (keyOf r =
          maxKeyFold rows (keyB (-1, [], -1)))) =
          rows.filter (fun r => decide (keyOf r =
            maxKeyFold rows (keyB (-1, [], -1)))) := by
        rw [filter_key_factor (sort_lines_by_number rows), filter_key_factor rows,
          sort_filter_fst]
      have e1 : rows.foldl fllStep (-1, [], -1) = (w.1, w.2, (w.2.length : Int)) :=
        foldl_fllStep_winner rows (-1, [], -1) w hinit_lt hwhead
      have e2 : (sort_lines_by_number rows).foldl fllStep (-1, [], -1) =
          (w.1, w.2, (w.2.length : Int)) := by
        refine foldl_fllStep_winner _ (-1, [], -1) w ?_ ?_
        · rw [hKs]; exact hinit_lt
        · rw [hKs, hfilter_eq]; exact hwhead
      unfold find_longest_line
      rw [e1, e2]

/-- C9: `sort_lines_by_number` returns a permutation of its input (no record
dropped or duplicated, length unchanged), and both the longest-line result
and the average line length are the same before and after sorting. -/
theorem c9_sort_is_permutation_stats_invariant (rows : List Record) :
    (sort_lines_by_number rows).Perm rows ∧
    (sort_lines_by_number rows).length = rows.length ∧
    find_longest_line (sort_lines_by_number rows) = find_longest_line rows ∧
    average_line_length (sort_lines_by_number rows) = average_line_length rows := by
  have hp : (sort_lines_by_number rows).Perm rows := List.perm_insertionSort byNum rows
  exact ⟨hp, hp.length_eq, fll_sort_eq rows, average_perm hp⟩

/-! ### Parsing: `parse_line`, Python `int` and `str` -/

theorem dropWhile_append_of_all {α : Type} {p : α → Bool} {l1 : List α} (l2 : List α)
    (h : ∀ a ∈ l1, p a = true) : (l1 ++ l2).dropWhile p = l2.dropWhile p := by
  induction l1 with
  | nil => rfl
  | cons a t ih =>
    rw [List.cons_append, List.dropWhile_cons_of_pos (h a (List.mem_cons_self a t))]
    exact ih (fun x hx => h x (List.mem_cons_of_mem a hx))

theorem takeWhile_append_of_all {α : Type} {p : α → Bool} {l1 : List α} (l2 : List α)
    (h : ∀ a ∈ l1, p a = true) : (l1 ++ l2).takeWhile p = l1 ++ l2.takeWhile p := by
  induction l1 with
  | nil => rfl
  | cons a t ih =>
    rw [List.cons_append, List.takeWhile_cons_of_pos (h a (List.mem_cons_self a t)),
      ih (fun x hx => h x (List.mem_cons_of_mem a hx)), List.cons_append]

theorem dropWhile_eq_self_of_all {α : Type} {p : α → Bool} {l : List α}
    (h : ∀ a ∈ l, p a = false) : l.dropWhile p = l := by
  cases l with
  | nil => rfl
  | cons a t =>
    exact List.dropWhile_cons_of_neg (by simp [h a (List.mem_cons_self a t)])

/-- Stripping trailing newlines is the identity when the last character is
not a newline. -/
theorem rstripNl_eq_self {s : Str} (h : s.getLast? ≠ some '\n') : rstripNl s = s := by
  unfold rstripNl
  cases hs : s.reverse with
  | nil => simp [List.reverse_eq_nil_iff.mp hs]
  | cons c t =>
    have hc : c ≠ '\n' := by
      have hh : s.getLast? = some c := by
        rw [← List.head?_reverse, hs]; rfl
      intro hcn
      exact h (by rw [hh, hcn])
    have hd : (c :: t).dropWhile (fun c => decide (c = '\n')) = c :: t :=
      List.dropWhile_cons_of_neg (by simp [hc])
    rw [hd, ← hs, List.reverse_reverse]

/-- Splitting at the last bar, on a string presented as `pre|suf` with a
bar-free suffix. -/
theorem rsplitBar_eq {pre suf : Str} (h : '|' ∉ suf) :
    rsplitBar (pre ++ '|' :: suf) = some (pre, suf) := by
  unfold rsplitBar
  have hrev : (pre ++ '|' :: suf).reverse = suf.reverse ++ '|' :: pre.reverse := by
    simp [List.reverse_append]
  have hall : ∀ a ∈ suf.reverse, (fun c => decide (c ≠ '|')) a = true := by
    intro a ha
    have ham : a ∈ suf := List.mem_reverse.mp ha
    simp only [decide_eq_true_eq]
    intro he
    exact h (he ▸ ham)
  rw [hrev, dropWhile_append_of_all _ hall, takeWhile_append_of_all _ hall,
    List.dropWhile_cons_of_neg (by simp), List.takeWhile_cons_of_neg (by simp)]
  simp

/-- A bar-free line has no split point. -/
theorem rsplitBar_none {s : Str} (h : '|' ∉ s) : rsplitBar s = none := by
  unfold rsplitBar
  have hall : ∀ a ∈ s.reverse, (fun c => decide (c ≠ '|')) a = true := by
    intro a ha
    have ham : a ∈ s := List.mem_reverse.mp ha
    simp only [decide_eq_true_eq]
    intro he
    exact h (he ▸ ham)
  rw [List.dropWhile_eq_nil_iff.mpr (by intro x hx; simp [hall x hx])]

theorem digitChar_isDigit {d : Nat} (h : d < 10) : (digitChar d).isDigit = true := by
  interval_cases d <;> decide

theorem digitVal_digitChar {d : Nat} (h : d < 10) : digitVal (digitChar d) = d := by
  interval_cases d <;> decide

theorem natDigs_ne_nil (n : Nat) : natDigs n ≠ [] := by
  rw [natDigs]
  split_ifs <;> simp

theorem natDigs_all_digits (n : Nat) : ∀ c ∈ natDigs n, c.isDigit = true := by
  induction n using Nat.strong_induction_on with
  | _ n ih =>
    rw [natDigs]
    split_ifs with h
    · intro c hc
      rw [List.mem_singleton.mp hc]
      exact digitChar_isDigit h
    · intro c hc
      rcases List.mem_append.mp hc with h1 | h1
      · exact ih (n / 10) (Nat.div_lt_self (by omega) (by omega)) c h1
      · rw [List.mem_singleton.mp h1]
        exact digitChar_isDigit (Nat.mod_lt n (by omega))

theorem natDigs_getLast? (n : Nat) :
    ∃ c, (natDigs n).getLast? = some c ∧ c.isDigit = true := by
  rw [natDigs]
  split_ifs with h
  · exact ⟨digitChar n, rfl, digitChar_isDigit h⟩
  · exact ⟨digitChar (n % 10), List.getLast?_concat _,
      digitChar_isDigit (Nat.mod_lt n (by omega))⟩

theorem digitsUndAux_cons (acc : Nat) (c : Char) (cs : Str) :
    digitsUndAux acc (c :: cs) =
      if c.isDigit then digitsUndAux (10 * acc + digitVal c) cs
      else if c = '_' then
        match cs with
        | [] => none
        | d :: ds => if d.isDigit then digitsUndAux (10 * acc + digitVal d) ds else none
      else none := by
  rw [digitsUndAux.eq_def]
  rfl

/-- On a pure digit run the underscore-aware scanner is a decimal fold. -/
theorem digitsUndAux_digits {ds : Str} (h : ∀ c ∈ ds, c.isDigit = true) (acc : Nat) :
    digitsUndAux acc ds = some (ds.foldl (fun a c => 10 * a + digitVal c) acc) := by
  induction ds generalizing acc with
  | nil => rfl
  | cons c cs ih =>
    rw [digitsUndAux_cons, List.foldl_cons, if_pos (h c (List.mem_cons_self c cs))]
    exact ih (fun x hx => h x (List.mem_cons_of_mem c hx)) _

/-- Decimal fold over the digits of `n` recovers `n`. -/
theorem foldl_digits_natDigs (n : Nat) : ∀ acc : Nat,
    (natDigs n).foldl (fun a c => 10 * a + digitVal c) acc =
      acc * 10 ^ (natDigs n).length + n := by
  induction n using Nat.strong_induction_on with
  | _ n ih =>
    intro acc
    rw [natDigs]
    split_ifs with h
    · simp [digitVal_digitChar h]
      omega
    · rw [List.foldl_append, ih (n / 10) (Nat.div_lt_self (by omega) (by omega)),
        List.length_append]
      simp only [List.foldl_cons, List.foldl_nil, List.length_cons, List.length_nil]
      rw [digitVal_digitChar (Nat.mod_lt n (by omega)), pow_succ, ← mul_assoc]
      have hdm := Nat.div_add_mod n 10
      generalize acc * 10 ^ (natDigs (n / 10)).length = Y
      omega

theorem digitsUnd_natDigs (n : Nat) : digitsUnd (natDigs n) = some n := by
  have hne := natDigs_ne_nil n
  have hall := natDigs_all_digits n
  have h0 : (natDigs n).foldl (fun a x => 10 * a + digitVal x) 0 = n := by
    rw [foldl_digits_natDigs n 0]
    simp
  cases hd : natDigs n with
  | nil => exact absurd hd hne
  | cons c cs =>
    rw [hd] at hall h0
    have hc : c.isDigit = true := hall c (List.mem_cons_self c cs)
    simp only [digitsUnd]
    rw [if_pos hc, digitsUndAux_digits (fun x hx => hall x (List.mem_cons_of_mem c hx))]
    rw [List.foldl_cons] at h0
    simp only [Nat.mul_zero, Nat.zero_add] at h0
    rw [h0]

theorem pyStrOfInt_chars {n : Int} {c : Char} (h : c ∈ pyStrOfInt n) :
    c = '-' ∨ c.isDigit = true := by
  unfold pyStrOfInt at h
  split_ifs at h with hn
  · rcases List.mem_cons.mp h with h1 | h1
    · exact Or.inl h1
    · exact Or.inr (natDigs_all_digits _ c h1)
  · exact Or.inr (natDigs_all_digits _ c h)

theorem pyStrOfInt_getLast? (n : Int) :
    ∃ c, (pyStrOfInt n).getLast? = some c ∧ c.isDigit = true := by
  unfold pyStrOfInt
  split_ifs with hn
  · obtain ⟨c, h1, h2⟩ := natDigs_getLast? (-n).toNat
    refine ⟨c, ?_, h2⟩
    rw [← List.singleton_append, List.getLast?_append, h1]
    rfl
  · exact natDigs_getLast? n.toNat

theorem not_ws_of_isDigit {c : Char} (h : c.isDigit = true) : isPyWs c = false := by
  cases h6 : isPyWs c with
  | false => rfl
  | true =>
    exfalso
    unfold isPyWs at h6
    simp only [Bool.or_eq_true, beq_iff_eq] at h6
    rcases h6 with ((((h1 | h1) | h1) | h1) | h1) | h1 <;>
      (rw [h1] at h; exact absurd h (by decide))

theorem stripWs_eq_self {s : Str} (h : ∀ c ∈ s, isPyWs c = false) : stripWs s = s := by
  unfold stripWs
  rw [dropWhile_eq_self_of_all h,
    dropWhile_eq_self_of_all (fun a ha => h a (List.mem_reverse.mp ha)),
    List.reverse_reverse]

theorem pyIntOfString_cons_eval {c : Char} {rest : Str}
    (hnws : ∀ x ∈ c :: rest, isPyWs x = false) :
    pyIntOfString (c :: rest) =
      if c = '-' then (digitsUnd rest).map (fun v => -(v : Int))
      else if c = '+' then (digitsUnd rest).map (fun v => (v : Int))
      else (digitsUnd (c :: rest)).map (fun v => (v : Int)) := by
  unfold pyIntOfString
  rw [stripWs_eq_self hnws]

theorem isDigit_ne_dash {c : Char} (h : c.isDigit = true) : ¬ c = '-' := by
  intro he
  rw [he] at h
  exact absurd h (by decide)

theorem isDigit_ne_plus {c : Char} (h : c.isDigit = true) : ¬ c = '+' := by
  intro he
  rw [he] at h
  exact absurd h (by decide)

theorem pyStrOfInt_ne_nil (n : Int) : pyStrOfInt n ≠ [] := by
  unfold pyStrOfInt
  split_ifs
  · simp
  · exact natDigs_ne_nil _

/-- Python `int(str(n))` is the identity on integers. -/
theorem pyIntOfString_pyStrOfInt (n : Int) : pyIntOfString (pyStrOfInt n) = some n := by
  have hnows : ∀ c ∈ pyStrOfInt n, isPyWs c = false := by
    intro c hc
    rcases pyStrOfInt_chars hc with h | h
    · rw [h]; rfl
    · exact not_ws_of_isDigit h
  rcases hshape : pyStrOfInt n with _ | ⟨c, rest⟩
  · exact absurd hshape (pyStrOfInt_ne_nil n)
  · rw [hshape] at hnows
    rw [pyIntOfString_cons_eval hnows]
    unfold pyStrOfInt at hshape
    split_ifs at hshape with hn
    · rw [List.cons.injEq] at hshape
      obtain ⟨h1, h2⟩ := hshape
      rw [if_pos h1.symm, ← h2, digitsUnd_natDigs]
      simp [Int.toNat_of_nonneg (by omega : (0 : Int) ≤ -n)]
    · have hcd : c.isDigit = true := by
        refine natDigs_all_digits n.toNat c ?_
        rw [hshape]
        exact List.mem_cons_self c rest
      rw [if_neg (isDigit_ne_dash hcd), if_neg (isDigit_ne_plus hcd), ← hshape,
        digitsUnd_natDigs]
      simp [Int.toNat_of_nonneg (le_of_not_lt hn)]

theorem parse_line_no_bar {raw : Str} (h : '|' ∉ rstripNl raw) : parse_line raw = none := by
  unfold parse_line
  rw [rsplitBar_none h]

theorem parse_line_split {raw pre suf : Str} (hsplit : rstripNl raw = pre ++ '|' :: suf)
    (hsuf : '|' ∉ suf) :
    parse_line raw = (pyIntOfString suf).map (fun n => (pre, n)) := by
  unfold parse_line
  rw [hsplit, rsplitBar_eq hsuf]

/-- Lines of the shape `text|str(n)` parse back to `(text, n)`. -/
theorem parse_line_text_int (t : Str) (n : Int) :
    parse_line (t ++ '|' :: pyStrOfInt n) = some (t, n) := by
  have hbar : '|' ∉ pyStrOfInt n := by
    intro hc
    rcases pyStrOfInt_chars hc with h | h
    · exact absurd h (by decide)
    · exact absurd h (by decide)
  have hlast : rstripNl (t ++ '|' :: pyStrOfInt n) = t ++ '|' :: pyStrOfInt n := by
    apply rstripNl_eq_self
    obtain ⟨c, hc1, hc2⟩ := pyStrOfInt_getLast? n
    rw [List.getLast?_append, ← List.singleton_append, List.getLast?_append, hc1,
      Option.or_some, Option.or_some]
    intro he
    rw [Option.some.injEq] at he
    rw [he] at hc2
    exact absurd hc2 (by decide)
  rw [parse_line_split hlast hbar, pyIntOfString_pyStrOfInt]
  rfl

/-- C5: `parse_line` strips trailing newlines, splits at the last `|`
(characterized by `text = pre`, `suffix = suf` with no bar in `suf`), returns
the bar-free-suffix parse, fails when no bar is present or the suffix is not
an integer (the `Option.map` collapses to `none` exactly then), and succeeds
on every line of the form `text|str(n)`, including text containing `|`. -/
theorem c5_parse_line_contract :
    (∀ raw : Str, '|' ∉ rstripNl raw → parse_line raw = none) ∧
    (∀ raw pre suf : Str, rstripNl raw = pre ++ '|' :: suf → '|' ∉ suf →
      parse_line raw = (pyIntOfString suf).map (fun n => (pre, n))) ∧
    (∀ (t : Str) (n : Int), parse_line (t ++ '|' :: pyStrOfInt n) = some (t, n)) :=
  ⟨fun _ h => parse_line_no_bar h,
    fun _ _ _ h1 h2 => parse_line_split h1 h2,
    fun t n => parse_line_text_int t n⟩

/-- C5 (witness): a bar-free line fails; a line with two bars splits at the
last one and parses its integer suffix. -/
theorem c5_witness :
    parse_line ['a', 'b'] = none ∧
    parse_line ['a', '|', 'b', '|', '4', '2'] = some (['a', '|', 'b'], 42) :=
  ⟨c5_parse_line_contract.1 ['a', 'b'] (by decide),
    (c5_parse_line_contract.2.1 ['a', '|', 'b', '|', '4', '2'] ['a', '|', 'b'] ['4', '2']
      (by decide) (by decide)).trans (by decide)⟩

/-- C10: `parse_line` accepts signed integer suffixes: for every newline-free
text and every integer `n`, negative included, `text|str(n)` parses to
`(text, n)` with no lower-bound check on the line number. -/
theorem c10_parse_line_accepts_signed (t : Str) (n : Int) (hnl : '\n' ∉ t) :
    parse_line (t ++ '|' :: pyStrOfInt n) = some (t, n) :=
  parse_line_text_int t n

/-- C10 (witness): a text containing a bar, tagged with `-5`, parses back. -/
theorem c10_witness :
    ('\n' ∉ (['x', '|', 'y'] : Str)) ∧
    parse_line ((['x', '|', 'y'] : Str) ++ '|' :: pyStrOfInt (-5)) =
      some (['x', '|', 'y'], -5) :=
  ⟨by decide, c10_parse_line_accepts_signed ['x', '|', 'y'] (-5) (by decide)⟩

/-! ### Filename derivation -/

theorem basename_no_slash (p : Str) : '/' ∉ basename p := by
  unfold basename
  intro h
  have h2 := List.mem_reverse.mp h
  have h3 := List.mem_takeWhile_imp h2
  simp at h3

/-- A string splits as everything before the last occurrence scan, the scan
remainder, through `reverse`, `takeWhile` and `dropWhile`. -/
theorem rev_decomp (c : Char) (p : Str) :
    p = (p.reverse.dropWhile (fun a => a ≠ c)).reverse ++
      (p.reverse.takeWhile (fun a => a ≠ c)).reverse := by
  have h := congrArg List.reverse
    (List.takeWhile_append_dropWhile (fun a => decide (a ≠ c)) p.reverse)
  rw [List.reverse_append, List.reverse_reverse] at h
  exact h.symm

theorem dropWhile_ne_head {c : Char} {l : List Char} {x : Char} {rest : List Char}
    (h : l.dropWhile (fun a => a ≠ c) = x :: rest) : x = c := by
  have h2 := List.head?_dropWhile_not (fun a => decide (a ≠ c)) l
  rw [h] at h2
  simp only [List.head?_cons] at h2
  simpa using h2

theorem rfindC_neg {c : Char} {p : Str} (h : c ∉ p) : rfindC c p = -1 := by
  unfold rfindC
  rw [if_neg h]

theorem rfindC_pos {c : Char} {p : Str} (h : c ∈ p) :
    rfindC c p = ((p.reverse.dropWhile (fun a => a ≠ c)).length : Int) - 1 := by
  unfold rfindC
  rw [if_pos h]

theorem stemAtLastDot_eq (b : Str) (x : Char) (rest : List Char)
    (hd : b.reverse.dropWhile (fun c => c ≠ '.') = x :: rest) :
    stemAtLastDot b = if rest.any (fun c => c ≠ '.') then rest.reverse else b := by
  unfold stemAtLastDot
  rw [hd]

theorem stemAtLastDot_eq_nil (b : Str)
    (hd : b.reverse.dropWhile (fun c => c ≠ '.') = []) : stemAtLastDot b = b := by
  unfold stemAtLastDot
  rw [hd]

theorem stemAtLastDot_subset {b : Str} {a : Char} (h : a ∈ stemAtLastDot b) : a ∈ b := by
  cases hd : b.reverse.dropWhile (fun c => c ≠ '.') with
  | nil =>
    rw [stemAtLastDot_eq_nil b hd] at h
    exact h
  | cons x rest =>
    rw [stemAtLastDot_eq b x rest hd] at h
    split_ifs at h with hany
    · have h2 : a ∈ b.reverse.dropWhile (fun c => c ≠ '.') := by
        rw [hd]
        exact List.mem_cons_of_mem x (List.mem_reverse.mp h)
      exact List.mem_reverse.mp
        ((List.dropWhile_sublist (fun c => decide (c ≠ '.'))).subset h2)
    · exact h

theorem no_slash_dirname {l : Str} (h : '/' ∉ l) : dirname l = [] := by
  unfold dirname
  have hd : l.reverse.dropWhile (fun c => c ≠ '/') = [] :=
    List.dropWhile_eq_nil_iff.mpr (fun x hx => by
      simp only [decide_eq_true_eq]
      intro he
      exact h (he ▸ List.mem_reverse.mp hx))
  rw [hd]
  simp

theorem no_slash_basename {l : Str} (h : '/' ∉ l) : basename l = l := by
  unfold basename
  have ht : l.reverse.takeWhile (fun c => c ≠ '/') = l.reverse :=
    List.takeWhile_eq_self_iff.mpr (fun x hx => by
      simp only [decide_eq_true_eq]
      intro he
      exact h (he ▸ List.mem_reverse.mp hx))
  rw [ht, List.reverse_reverse]

theorem getLast?_mem_of_ne_nil {l : Str} (h : l ≠ []) :
    ∃ c, l.getLast? = some c ∧ c ∈ l := by
  cases hr : l.reverse with
  | nil => exact absurd (List.reverse_eq_nil_iff.mp hr) h
  | cons c t =>
    refine ⟨c, ?_, ?_⟩
    · rw [← List.head?_reverse, hr]
      rfl
    · refine List.mem_reverse.mp ?_
      rw [hr]
      exact List.mem_cons_self c t

/-- The first component of `splitext` on a slash-free string is the stem at
the last dot. -/
theorem splitext_no_slash {b : Str} (hns : '/' ∉ b) :
    (splitext b).1 = stemAtLastDot b := by
  by_cases hdot : '.' ∈ b
  · cases hd : b.reverse.dropWhile (fun a => a ≠ '.') with
    | nil =>
      exfalso
      have hall := List.dropWhile_eq_nil_iff.mp hd
      have h2 := hall '.' (List.mem_reverse.mpr hdot)
      simp at h2
    | cons x rest =>
      have hx : x = '.' := dropWhile_ne_head hd
      have hlen : rfindC '.' b = (rest.length : Int) := by
        rw [rfindC_pos hdot, hd]
        simp only [List.length_cons]
        push_cast
        omega
      have hdecomp : b = rest.reverse ++ '.' ::
          (b.reverse.takeWhile (fun a => a ≠ '.')).reverse := by
        have h0 := rev_decomp '.' b
        rw [hd, hx, List.reverse_cons, List.append_assoc, List.singleton_append] at h0
        exact h0
      have htake : b.take ((rest.length : Int)).toNat = rest.reverse := by
        rw [Int.toNat_natCast]
        conv_lhs => rw [hdecomp]
        exact List.take_left' (by simp)
      unfold splitext
      rw [rfindC_neg hns, hlen, htake]
      rw [show ((-1 : Int) + 1).toNat = 0 from rfl, List.drop_zero, List.any_reverse]
      rw [if_pos (show (-1 : Int) < (rest.length : Int) by omega)]
      rw [stemAtLastDot_eq b x rest hd]
      split_ifs with h <;> rfl
  · have hnil : b.reverse.dropWhile (fun c => c ≠ '.') = [] :=
      List.dropWhile_eq_nil_iff.mpr (fun x hx => by
        simp only [decide_eq_true_eq]
        intro he
        exact hdot (he ▸ List.mem_reverse.mp hx))
    unfold splitext
    rw [rfindC_neg hns, rfindC_neg hdot, if_neg (by omega), stemAtLastDot_eq_nil b hnil]

/-- The directory returned by `dirname` is all slashes or ends in a
non-slash character. -/
theorem dirname_shape (p : Str) :
    (∀ c ∈ dirname p, c = '/') ∨ (∃ c, (dirname p).getLast? = some c ∧ c ≠ '/') := by
  unfold dirname
  split_ifs with h
  · rw [List.reverse_reverse]
    cases hdd : (p.reverse.dropWhile (fun c => c ≠ '/')).dropWhile (fun c => c = '/') with
    | nil =>
      left
      intro c hc
      simp at hc
    | cons y t =>
      right
      refine ⟨y, ?_, ?_⟩
      · rw [List.getLast?_reverse]
        rfl
      · have h2 := List.head?_dropWhile_not (fun c => decide (c = '/'))
          (p.reverse.dropWhile (fun c => c ≠ '/'))
        rw [hdd] at h2
        simp only [List.head?_cons] at h2
        simpa using h2
  · left
    intro c hc
    rcases not_and_or.mp h with h1 | h1
    · rw [not_not.mp h1] at hc
      exact absurd hc (List.not_mem_nil c)
    · by_contra hcne
      exact h1 (List.any_eq_true.mpr ⟨c, hc, by simp [hcne]⟩)

/-- Appending a slash-free name to an all-slash directory: `dirname` and
`basename` recover the parts. -/
theorem dirname_append_all_slash {d n : Str} (hd : d ≠ []) (hall : ∀ c ∈ d, c = '/')
    (hn : '/' ∉ n) : dirname (d ++ n) = d ∧ basename (d ++ n) = n := by
  have hrev : (d ++ n).reverse = n.reverse ++ d.reverse := List.reverse_append d n
  have hnall : ∀ a ∈ n.reverse, (fun c => decide (c ≠ '/')) a = true := by
    intro a ha
    simp only [decide_eq_true_eq]
    intro he
    exact hn (he ▸ List.mem_reverse.mp ha)
  have hnotany : ¬ d.any (fun c => decide (c ≠ '/')) = true := by
    intro hc
    obtain ⟨x, hx1, hx2⟩ := List.any_eq_true.mp hc
    simp only [decide_eq_true_eq] at hx2
    exact hx2 (hall x hx1)
  cases hdr : d.reverse with
  | nil => exact absurd (List.reverse_eq_nil_iff.mp hdr) hd
  | cons c t =>
    have hc : c = '/' := by
      refine hall c (List.mem_reverse.mp ?_)
      rw [hdr]
      exact List.mem_cons_self c t
    have hdw : (d ++ n).reverse.dropWhile (fun c => c ≠ '/') = d.reverse := by
      rw [hrev, dropWhile_append_of_all _ hnall, hdr,
        List.dropWhile_cons_of_neg (by simp [hc])]
    have htw : (d ++ n).reverse.takeWhile (fun c => c ≠ '/') = n.reverse := by
      rw [hrev, takeWhile_append_of_all _ hnall, hdr,
        List.takeWhile_cons_of_neg (by simp [hc]), List.append_nil]
    constructor
    · unfold dirname
      rw [hdw]
      simp only [List.reverse_reverse]
      split_ifs with hcond
      · exact absurd hcond.2 hnotany
      · rfl
    · unfold basename
      rw [htw, List.reverse_reverse]

/-- Appending `/name` to a directory ending in a non-slash: `dirname` and
`basename` recover the parts. -/
theorem dirname_append_slash_name {d n : Str} (hd : d ≠ []) {c0 : Char}
    (hlast : d.getLast? = some c0) (hc0 : c0 ≠ '/') (hn : '/' ∉ n) :
    dirname (d ++ '/' :: n) = d ∧ basename (d ++ '/' :: n) = n := by
  have hrev : (d ++ '/' :: n).reverse = n.reverse ++ '/' :: d.reverse := by
    rw [List.reverse_append, List.reverse_cons, List.append_assoc, List.singleton_append]
  have hnall : ∀ a ∈ n.reverse, (fun c => decide (c ≠ '/')) a = true := by
    intro a ha
    simp only [decide_eq_true_eq]
    intro he
    exact hn (he ▸ List.mem_reverse.mp ha)
  cases hdr : d.reverse with
  | nil => exact absurd (List.reverse_eq_nil_iff.mp hdr) hd
  | cons c t =>
    have hc : c = c0 := by
      have h1 : d.reverse.head? = some c0 := by
        rw [List.head?_reverse]
        exact hlast
      rw [hdr] at h1
      injection h1
    have hdw : (d ++ '/' :: n).reverse.dropWhile (fun c => c ≠ '/') = '/' :: d.reverse := by
      rw [hrev, dropWhile_append_of_all _ hnall, List.dropWhile_cons_of_neg (by simp)]
    have htw : (d ++ '/' :: n).reverse.takeWhile (fun c => c ≠ '/') = n.reverse := by
      rw [hrev, takeWhile_append_of_all _ hnall, List.takeWhile_cons_of_neg (by simp),
        List.append_nil]
    constructor
    · unfold dirname
      rw [hdw]
      simp only [List.reverse_reverse]
      split_ifs with hcond
      · rw [List.dropWhile_cons_of_pos (by simp), hdr,
          List.dropWhile_cons_of_neg (by simp [hc, hc0]), ← hdr, List.reverse_reverse]
      · exfalso
        apply hcond
        constructor
        · simp
        · refine List.any_eq_true.mpr ⟨c0, ?_, by simp [hc0]⟩
          refine List.mem_reverse.mpr (List.mem_cons_of_mem _ ?_)
          rw [hdr, hc]
          exact List.mem_cons_self c0 t
    · unfold basename
      rw [htw, List.reverse_reverse]

/-- Joining a nonempty directory with a slash-free name: `dirname` and
`basename` recover the parts. -/
theorem join_dirname_basename {d n : Str} (hd : d ≠ []) (hn : '/' ∉ n)
    (hshape : (∀ c ∈ d, c = '/') ∨ (∃ c, d.getLast? = some c ∧ c ≠ '/')) :
    dirname (joinPath d n) = d ∧ basename (joinPath d n) = n := by
  have hnh : ¬ n.head? = some '/' := by
    intro hh
    exact hn (List.mem_of_mem_head? (Option.mem_def.mpr hh))
  unfold joinPath
  rw [if_neg hnh]
  rcases hshape with hall | ⟨c0, hc1, hc2⟩
  · obtain ⟨cl, hcl1, hcl2⟩ := getLast?_mem_of_ne_nil hd
    have hcl : cl = '/' := hall cl hcl2
    rw [if_pos (Or.inr (by rw [hcl1, hcl]))]
    exact dirname_append_all_slash hd hall hn
  · have hnor : ¬ (d = [] ∨ d.getLast? = some '/') := by
      rintro (h1 | h1)
      · exact hd h1
      · rw [hc1] at h1
        injection h1 with h2
        exact hc2 h2
    rw [if_neg hnor]
    exact dirname_append_slash_name hd hc1 hc2 hn

theorem out_name_no_slash (p : Str) :
    '/' ∉ (splitext (basename p)).1 ++ bookSuffix := by
  intro h
  rcases List.mem_append.mp h with h1 | h1
  · rw [splitext_no_slash (basename_no_slash p)] at h1
    exact basename_no_slash p (stemAtLastDot_subset h1)
  · exact absurd h1 (by decide)

/-- C1 (amended): `make_output_filename` returns a code equal to the input's
basename truncated at the last `.` (a basename with no dot, or whose
characters before its last dot are all dots, is kept whole), and an output
path whose directory is the input's directory and whose basename is
`<code>_book.txt`. -/
theorem c1_make_output_filename_shape (input_path : Str) :
    (make_output_filename input_path).1 = stemAtLastDot (basename input_path) ∧
    dirname (make_output_filename input_path).2 = dirname input_path ∧
    basename (make_output_filename input_path).2 =
      (make_output_filename input_path).1 ++ bookSuffix := by
  have hcode : (splitext (basename input_path)).1 = stemAtLastDot (basename input_path) :=
    splitext_no_slash (basename_no_slash input_path)
  have hns : '/' ∉ (splitext (basename input_path)).1 ++ bookSuffix :=
    out_name_no_slash input_path
  unfold make_output_filename
  split_ifs with hdir
  · have hjoin := join_dirname_basename hdir hns (dirname_shape input_path)
    exact ⟨hcode, hjoin.1, hjoin.2⟩
  · refine ⟨hcode, ?_, ?_⟩
    · rw [no_slash_dirname hns]
      exact (not_not.mp hdir).symm
    · exact no_slash_basename hns

/-- C1 (counterexample): on input `a.b.txt` the code is `a.b` — `splitext`
splits at the last dot — not `a` as the first-dot claim states. -/
theorem c1_counterexample :
    make_output_filename ['a', '.', 'b', '.', 't', 'x', 't'] =
      (['a', '.', 'b'], ['a', '.', 'b', '_', 'b', 'o', 'o', 'k', '.', 't', 'x', 't']) ∧
    (['a', '.', 'b'] : Str) ≠ ['a'] := by
  constructor
  · decide
  · decide

end Library
